import Mathlib

/-!  A formal model of MiniJson (`minijson.hpp`): a JSON value type with
builder operations, a recursive-descent parser and a serializer, together
with proofs about their behaviour.

Modelling conventions.  C++ strings are modelled as `List Char`, each
`Char` standing for one byte (every concrete input considered below is
ASCII, where the two agree).  `double` is modelled as an exact rational
number: `std::stod`'s rounding to the nearest double is not modelled, and
every numeric literal appearing in a theorem below is exactly representable
as a double, so the model and the C++ agree on it; `std::stod` throwing
`std::out_of_range` when the converted value falls outside the range of
`double` is modelled by comparing the exact value against `DBL_MAX`.
Thrown exceptions are modelled with `Except`.  `std::map<std::string,Json>`
is modelled as an association list kept sorted by the key order of
`std::less<std::string>` (lexicographic byte comparison).  The parser's
cursor into the `std::string_view` is modelled by passing the remaining
input; `get()`/`peek()` return the character `'\0'` at end of input without
advancing, exactly as in the source.  The mutually recursive grammar
productions take a fuel parameter bounding the recursion depth; the
top-level `parse` supplies more fuel than any input can consume. -/

set_option maxRecDepth 4000

namespace MiniJson

/-- Classification used by `skip_ws`: `std::isspace` in the C locale holds
exactly for space, tab, newline, vertical tab, form feed and carriage
return. -/
def isSpaceC (c : Char) : Bool :=
  c == ' ' || c == '\t' || c == '\n' || c == Char.ofNat 11 || c == Char.ofNat 12 || c == '\r'

/-- Classification used by the parser: `std::isdigit` in the C locale. -/
def isDigitC (c : Char) : Bool := 48 ≤ c.toNat && c.toNat ≤ 57

/-- Key comparison of `std::map<std::string, Json>`: `std::less<std::string>`,
lexicographic comparison of the bytes (`char_traits<char>` compares as
unsigned char, here `Char.toNat`). -/
def strLess : List Char → List Char → Bool
  | _, [] => false
  | [], _ :: _ => true
  | a :: as, b :: bs =>
    if a.toNat < b.toNat then true
    else if b.toNat < a.toNat then false
    else strLess as bs

/-- Errors thrown by `Json::parse`: `std::runtime_error` for every grammar
violation (the JSON syntax errors), and `std::out_of_range` thrown by
`std::stod` when a number literal's value falls outside the range of
`double`. -/
inductive PErr where
  | synError (msg : String)
  | outOfRange
deriving DecidableEq

/-- Errors thrown by the accessors: `std::bad_variant_access` from
`std::get` on the wrong variant (a type mismatch), `std::out_of_range`
from `std::map::at` on a missing key. -/
inductive CErr where
  | typeMismatch
  | keyNotFound
deriving DecidableEq

mutual
/-- The `Json` value: a closed tagged union over null, bool, double,
string, array and object (`std::variant<Null, bool, double, std::string,
Array, Object>`). -/
inductive Json where
  | null : Json
  | bool (b : Bool) : Json
  | num (q : ℚ) : Json
  | str (s : List Char) : Json
  | arr (a : JArr) : Json
  | obj (o : JObj) : Json
/-- `Json::Array`, i.e. `std::vector<Json>`. -/
inductive JArr where
  | nil : JArr
  | cons (hd : Json) (tl : JArr) : JArr
/-- `Json::Object`, i.e. `std::map<std::string, Json>`: an association
list kept sorted in strictly increasing key order. -/
inductive JObj where
  | nil : JObj
  | cons (key : List Char) (val : Json) (tl : JObj) : JObj
end

/-- The keys of an object, in iteration order (list order). -/
def keyList : JObj → List (List Char)
  | .nil => []
  | .cons k _ t => k :: keyList t

/-- Whether `k` is strictly below every key of `o`. -/
def ltAllKeys (k : List Char) : JObj → Bool
  | .nil => true
  | .cons k' _ t => strLess k k' && ltAllKeys k t

/-- The representation invariant of `std::map`: keys in strictly
increasing order. -/
def sortedKeys : JObj → Bool
  | .nil => true
  | .cons k _ t => ltAllKeys k t && sortedKeys t

/-- Whether the map holds the key `k` (`std::map::count(k) != 0`). -/
def keyMem (k : List Char) : JObj → Bool
  | .nil => false
  | .cons k' _ t => if k = k' then true else keyMem k t

/-- `std::map::emplace(k, v)`: inserts at the ordered position, and does
nothing when the key is already present (no overwrite). -/
def insertEmplace (k : List Char) (v : Json) : JObj → JObj
  | .nil => .cons k v .nil
  | .cons k' v' t =>
    if strLess k k' then .cons k v (.cons k' v' t)
    else if k = k' then .cons k' v' t
    else .cons k' v' (insertEmplace k v t)

/-- `std::map::operator[](k)`: returns the value bound to `k`, inserting a
default-constructed (`Null`) value first when the key is absent.  Returns
the updated map together with the value the returned reference denotes. -/
def jobjIndex (k : List Char) : JObj → JObj × Json
  | .nil => (.cons k .null .nil, .null)
  | .cons k' v' t =>
    if strLess k k' then (.cons k .null (.cons k' v' t), .null)
    else if k = k' then (.cons k' v' t, v')
    else
      let p := jobjIndex k t
      (.cons k' v' p.1, p.2)

/-- `std::vector::push_back`. -/
def jarrAppend : JArr → Json → JArr
  | .nil, x => .cons x .nil
  | .cons h t, x => .cons h (jarrAppend t x)

/-- `Json::is_object`. -/
def is_object : Json → Bool
  | .obj _ => true
  | _ => false

/-- `Json::is_array`. -/
def is_array : Json → Bool
  | .arr _ => true
  | _ => false

/-- `Json::is_null`. -/
def is_null : Json → Bool
  | .null => true
  | _ => false

/-- `Json::operator[](key)`: `if (!is_object()) v_ = Object{}; return
std::get<Object>(v_)[key];` — on a non-object the payload is discarded and
replaced by an empty object, then `std::map::operator[]` runs.  The result
is the updated value together with the value the returned reference
denotes; the error branch models `std::get` throwing on a wrong variant
(unreachable after the replacement). -/
def subscript (j : Json) (key : List Char) : Except CErr (Json × Json) :=
  let j := if is_object j then j else Json.obj .nil
  match j with
  | .obj o =>
    let p := jobjIndex key o
    .ok (.obj p.1, p.2)
  | _ => .error .typeMismatch

/-- `Json::push_back(j)`: `if (!is_array()) v_ = Array{};
std::get<Array>(v_).push_back(j);` — on a non-array the payload is
discarded and replaced by an empty array before appending. -/
def push_back (j x : Json) : Except CErr Json :=
  let j := if is_array j then j else Json.arr .nil
  match j with
  | .arr a => .ok (.arr (jarrAppend a x))
  | _ => .error .typeMismatch

/-- The double-quote byte. -/
def qch : Char := Char.ofNat 34

/-- The backslash byte. -/
def bsl : Char := Char.ofNat 92

/-- The opening curly brace byte. -/
def obr : Char := Char.ofNat 123

/-- The closing curly brace byte. -/
def cbr : Char := Char.ofNat 125

/-- The NUL byte, returned by `peek()`/`get()` at end of input. -/
def nulc : Char := Char.ofNat 0

/-- Uppercase hexadecimal digit table of `Json::escape`
(`"0123456789ABCDEF"`). -/
def hexU (n : ℕ) : Char :=
  if n < 10 then Char.ofNat (48 + n) else Char.ofNat (55 + n)

/-- One step of `Json::escape`: the text emitted for one byte of the
string.  Quote and backslash get a backslash escape, the five named
control characters their short escapes, any other byte below 0x20 a
`\u00XX` escape, and every other byte passes through unchanged. -/
def encChar (c : Char) : List Char :=
  if c = qch then [bsl, qch]
  else if c = bsl then [bsl, bsl]
  else if c = Char.ofNat 8 then [bsl, 'b']
  else if c = Char.ofNat 12 then [bsl, 'f']
  else if c = '\n' then [bsl, 'n']
  else if c = '\r' then [bsl, 'r']
  else if c = '\t' then [bsl, 't']
  else if c.toNat < 32 then [bsl, 'u', '0', '0', hexU (c.toNat / 16), hexU (c.toNat % 16)]
  else [c]

/-- `Json::escape`, applied byte by byte. -/
def escape : List Char → List Char
  | [] => []
  | c :: rest => encChar c ++ escape rest

/-- Decimal digits of a natural number, most significant first (helper
with fuel; the fuel never runs out for `fuel ≥ n`). -/
def natDigitsA : ℕ → ℕ → List Char → List Char
  | 0, _, acc => acc
  | fuel + 1, n, acc =>
    if n = 0 then acc else natDigitsA fuel (n / 10) (Char.ofNat (48 + n % 10) :: acc)

/-- Decimal digits of a natural number, most significant first. -/
def natDigits (n : ℕ) : List Char :=
  if n = 0 then ['0'] else natDigitsA (n + 1) n []

/-- Floor of the base-10 logarithm of a positive natural number (helper
with fuel). -/
def natLog10A : ℕ → ℕ → ℕ
  | 0, _ => 0
  | fuel + 1, n => if n < 10 then 0 else natLog10A fuel (n / 10) + 1

/-- Floor of the base-10 logarithm of a positive natural number. -/
def natLog10 (n : ℕ) : ℕ := natLog10A n n

/-- The rational `10 ^ k` for an integer exponent. -/
def qpow10 (k : ℤ) : ℚ :=
  if 0 ≤ k then mkRat ((10 : ℤ) ^ k.toNat) 1 else mkRat 1 (10 ^ (-k).toNat)

/-- Floor of the base-10 logarithm of a positive rational: the unique `e`
with `10 ^ e ≤ q < 10 ^ (e + 1)`, computed from the digit counts of the
numerator and denominator and fixed up by direct comparison. -/
def qFloorLog10 (q : ℚ) : ℤ :=
  let a : ℤ := (natLog10 q.num.toNat : ℤ) - (natLog10 q.den : ℤ)
  if qpow10 (a + 1) ≤ q then a + 1
  else if qpow10 a ≤ q then a
  else a - 1

/-- Rounding of the nonnegative fraction `n / d` to the nearest natural
number, ties to even (the rounding of correctly rounded decimal
output). -/
def roundHalfEven (n d : ℕ) : ℕ :=
  let f := n / d
  let r2 := 2 * (n % d)
  if r2 < d then f
  else if d < r2 then f + 1
  else if f % 2 = 0 then f else f + 1

/-- Removal of trailing zero digits (the `%g` conversion drops trailing
zeros of the fractional part). -/
def stripZeros (l : List Char) : List Char :=
  (l.reverse.dropWhile (· == '0')).reverse

/-- Left-padding of an exponent to the two digits `%g` prints at least. -/
def pad2 (l : List Char) : List Char :=
  if l.length < 2 then '0' :: l else l

/-- Fixed-notation rendering of the 15 significant digits `ds` of a
number whose decimal exponent is `e` (used when `-4 ≤ e < 15`). -/
def fmtFixed (ds : List Char) (e : ℤ) : List Char :=
  if 0 ≤ e then
    let ip := ds.take (e.toNat + 1)
    let fp := stripZeros (ds.drop (e.toNat + 1))
    ip ++ (if fp = [] then [] else '.' :: fp)
  else '0' :: '.' :: (List.replicate ((-e).toNat - 1) '0' ++ stripZeros ds)

/-- Scientific-notation rendering of the 15 significant digits `ds` with
decimal exponent `e` (used when `e < -4` or `e ≥ 15`); the exponent is
printed with a sign and at least two digits. -/
def fmtSci (ds : List Char) (e : ℤ) : List Char :=
  match ds with
  | [] => []
  | d :: rest =>
    let fp := stripZeros rest
    d :: (if fp = [] then [] else '.' :: fp) ++
      ('e' :: (if e < 0 then '-' else '+') :: pad2 (natDigits e.natAbs))

/-- Rendering of a positive rational the way
`std::ostringstream` with `precision(15)` renders a `double`: the `%.15g`
conversion — round to 15 significant decimal digits, then fixed notation
for decimal exponents in `[-4, 15)` and scientific notation otherwise,
dropping trailing fractional zeros. -/
def fmtPos (q : ℚ) : List Char :=
  let e := qFloorLog10 q
  let sh : ℤ := 14 - e
  let n : ℕ := if 0 ≤ sh then q.num.toNat * 10 ^ sh.toNat else q.num.toNat
  let d : ℕ := if 0 ≤ sh then q.den else q.den * 10 ^ (-sh).toNat
  let m0 := roundHalfEven n d
  let m := if m0 = 10 ^ 15 then 10 ^ 14 else m0
  let e := if m0 = 10 ^ 15 then e + 1 else e
  let ds := natDigits m
  if -4 ≤ e ∧ e < 15 then fmtFixed ds e else fmtSci ds e

/-- Rendering of a number by `dump_impl`:
`std::ostringstream oss; oss.precision(15); oss << as_num();` on the
exact rational modelling the double. -/
def fmtNum (q : ℚ) : List Char :=
  if q = 0 then ['0'] else if q < 0 then '-' :: fmtPos (-q) else fmtPos q

/-- Indentation emitted by the lambda `ind` of `dump_impl`: `d * indent`
spaces in pretty mode, nothing in compact mode (`indent < 0`). -/
def indSp (indent : Int) (d : Nat) : List Char :=
  if 0 ≤ indent then List.replicate (d * indent.toNat) ' ' else []

/-- The newline `dump_impl` emits after elements in pretty mode. -/
def nlc (indent : Int) : List Char :=
  if 0 ≤ indent then ['\n'] else []

mutual
/-- `Json::dump_impl`: serialization of one value at nesting depth
`depth`; `indent < 0` is compact mode.  An empty array or object renders
as `[]`/`{}` with no inserted newline even in pretty mode. -/
def dump_impl : Json → Int → Nat → List Char
  | .null, _, _ => 'n' :: 'u' :: 'l' :: 'l' :: []
  | .bool b, _, _ =>
    if b then 't' :: 'r' :: 'u' :: 'e' :: [] else 'f' :: 'a' :: 'l' :: 's' :: 'e' :: []
  | .num q, _, _ => fmtNum q
  | .str s, _, _ => qch :: escape s ++ [qch]
  | .arr a, indent, depth =>
    (match a with
     | .nil => '[' :: ']' :: []
     | .cons _ _ =>
       '[' :: (nlc indent ++ dump_arr a indent depth ++ indSp indent depth ++ [']']))
  | .obj o, indent, depth =>
    (match o with
     | .nil => obr :: cbr :: []
     | .cons _ _ _ =>
       obr :: (nlc indent ++ dump_obj o indent depth ++ indSp indent depth ++ [cbr]))
/-- The element loop of `dump_impl` for arrays: each element is indented
one level deeper, followed by a comma when it is not the last and by a
newline in pretty mode. -/
def dump_arr : JArr → Int → Nat → List Char
  | .nil, _, _ => []
  | .cons h t, indent, depth =>
    indSp indent (depth + 1) ++ dump_impl h indent (depth + 1) ++
      (match t with | .nil => [] | .cons _ _ => [',']) ++ nlc indent ++
      dump_arr t indent depth
/-- The member loop of `dump_impl` for objects, iterating the map in its
key order: `"key":` then one space in pretty mode, then the value. -/
def dump_obj : JObj → Int → Nat → List Char
  | .nil, _, _ => []
  | .cons k v t, indent, depth =>
    indSp indent (depth + 1) ++ qch :: escape k ++ qch :: ':' ::
      ((if 0 ≤ indent then [' '] else []) ++ dump_impl v indent (depth + 1) ++
        (match t with | .nil => [] | .cons _ _ _ => [',']) ++ nlc indent ++
        dump_obj t indent depth)
end

/-- `Json::dump(indent)`: serialization starting at depth 0; the C++
default argument `indent = -1` is compact mode. -/
def dump (j : Json) (indent : Int) : List Char := dump_impl j indent 0

/-- `Parser::peek()`: the current character, or `'\0'` at end of input. -/
def peekC : List Char → Char
  | [] => nulc
  | c :: _ => c

/-- `Parser::skip_ws()`: advances past `std::isspace` characters. -/
def skip_ws (l : List Char) : List Char := l.dropWhile isSpaceC

/-- A single-quote character as a string, used in the error messages. -/
def sq : String := (Char.ofNat 39).toString

/-- The message of `Parser::expect`. -/
def expectMsg (c : Char) : String := "JSON: expected " ++ sq ++ c.toString ++ sq

/-- The message of the array separator error. -/
def msgArrSep : String := "JSON: expected " ++ sq ++ "," ++ sq ++ " or " ++ sq ++ "]" ++ sq

/-- The message of the object separator error. -/
def msgObjSep : String := "JSON: expected " ++ sq ++ "," ++ sq ++ " or " ++ sq ++ "\x7d" ++ sq

/-- `Parser::expect(c)`: consumes one character (`get()`, which yields
`'\0'` at end of input) and fails unless it is `c`. -/
def expectC (c : Char) (l : List Char) : Except PErr (List Char) :=
  if peekC l = c then .ok l.tail else .error (.synError (expectMsg c))

/-- `Parser::parse_null`: the exact literal `null`. -/
def parse_null (l : List Char) : Except PErr (Json × List Char) := do
  let l ← expectC 'n' l
  let l ← expectC 'u' l
  let l ← expectC 'l' l
  let l ← expectC 'l' l
  return (.null, l)

/-- `Parser::parse_bool`: the exact literal `true` or `false`. -/
def parse_bool (l : List Char) : Except PErr (Json × List Char) :=
  if peekC l = 't' then do
    let l ← expectC 't' l
    let l ← expectC 'r' l
    let l ← expectC 'u' l
    let l ← expectC 'e' l
    return (.bool true, l)
  else do
    let l ← expectC 'f' l
    let l ← expectC 'a' l
    let l ← expectC 'l' l
    let l ← expectC 's' l
    let l ← expectC 'e' l
    return (.bool false, l)

/-- The integer part of `parse_number`: a single `0`, or a nonempty digit
run; anything else is `JSON: bad number`. -/
def scanInt (l : List Char) : Except PErr (List Char × List Char) :=
  if peekC l = '0' then .ok (['0'], l.tail)
  else if isDigitC (peekC l) then .ok (l.takeWhile isDigitC, l.dropWhile isDigitC)
  else .error (.synError "JSON: bad number")

/-- The optional fractional part of `parse_number`: a dot followed by at
least one digit. -/
def scanFrac (l : List Char) : Except PErr (List Char × List Char) :=
  if peekC l = '.' then
    let l := l.tail
    if isDigitC (peekC l) then .ok (l.takeWhile isDigitC, l.dropWhile isDigitC)
    else .error (.synError "JSON: bad number")
  else .ok ([], l)

/-- The optional exponent part of `parse_number`: `e`/`E`, an optional
sign, then at least one digit; yields (negative?, digits, rest). -/
def scanExp (l : List Char) : Except PErr (Bool × List Char × List Char) :=
  if peekC l = 'e' ∨ peekC l = 'E' then
    let l := l.tail
    let p := if peekC l = '+' then (false, l.tail)
             else if peekC l = '-' then (true, l.tail)
             else (false, l)
    if isDigitC (peekC p.2) then .ok (p.1, p.2.takeWhile isDigitC, p.2.dropWhile isDigitC)
    else .error (.synError "JSON: bad number")
  else .ok (false, [], l)

/-- The natural number denoted by a run of decimal digits. -/
def digitsVal (ds : List Char) : ℕ := ds.foldl (fun a c => a * 10 + (c.toNat - 48)) 0

/-- `DBL_MAX`, the largest finite double: `(2^53 - 1) * 2^971 = 2^1024 - 2^971`. -/
def dblMax : ℚ := mkRat (((2 ^ 1024 - 2 ^ 971 : ℕ) : ℤ)) 1

/-- The exact value of the decimal literal consumed by `parse_number`,
assembled from its sign, integer digits, fraction digits and exponent. -/
def numValue (neg : Bool) (ids fds : List Char) (eneg : Bool) (eds : List Char) : ℚ :=
  let mag : ℕ := digitsVal ids * 10 ^ fds.length + digitsVal fds
  let e : ℕ := digitsVal eds
  let n : ℕ := if eneg then mag else mag * 10 ^ e
  let d : ℕ := if eneg then 10 ^ fds.length * 10 ^ e else 10 ^ fds.length
  if neg then mkRat (-(n : ℤ)) d else mkRat (n : ℤ) d

/-- `Parser::parse_number`: an optional minus sign, an integer part that
is a single `0` or a digit run, an optional fraction, an optional
exponent; the consumed substring is then converted by `std::stod`, which
throws `std::out_of_range` when the value falls outside the range of
`double` (modelled as the exact value exceeding `DBL_MAX`; rounding to
the nearest double is not modelled). -/
def parse_number (l : List Char) : Except PErr (Json × List Char) := do
  let p0 := if peekC l = '-' then (true, l.tail) else (false, l)
  let (ids, l) ← scanInt p0.2
  let (fds, l) ← scanFrac l
  let (eneg, eds, l) ← scanExp l
  let q := numValue p0.1 ids fds eneg eds
  if dblMax < (if q < 0 then -q else q) then .error .outOfRange
  else .ok (.num q, l)

/-- Continuation of `parse_string` after a decoded character: prepends it
to the rest of the decoded string. -/
def pre (c : Char) : Except PErr (List Char × List Char) → Except PErr (List Char × List Char)
  | .ok (s, r) => .ok (c :: s, r)
  | .error e => .error e

/-- Continuation of `parse_string` after a `\u` escape: the literal
backslash, `u` and the four following raw characters are copied through
undecoded. -/
def preU (h1 h2 h3 h4 : Char) :
    Except PErr (List Char × List Char) → Except PErr (List Char × List Char)
  | .ok (s, r) => .ok (bsl :: 'u' :: h1 :: h2 :: h3 :: h4 :: s, r)
  | .error e => .error e

/-- The character loop of `Parser::parse_string` (`while (!eof())`):
characters are copied until a closing quote; a backslash starts an
escape; reaching end of input ends the loop and returns the string read
so far without an error.  In the `\u` case the four characters are read
with `get()`, which at end of input yields `'\0'` without advancing, so a
truncated `\u` escape is padded with NUL bytes and the loop then ends at
end of input. -/
def psLoop : List Char → Except PErr (List Char × List Char)
  | [] => .ok ([], [])
  | c :: rest =>
    if c = qch then .ok ([], rest)
    else if c = bsl then
      match rest with
      | [] => .error (.synError "JSON: bad escape")
      | e :: r2 =>
        if e = qch then pre qch (psLoop r2)
        else if e = bsl then pre bsl (psLoop r2)
        else if e = '/' then pre '/' (psLoop r2)
        else if e = 'b' then pre (Char.ofNat 8) (psLoop r2)
        else if e = 'f' then pre (Char.ofNat 12) (psLoop r2)
        else if e = 'n' then pre '\n' (psLoop r2)
        else if e = 'r' then pre '\r' (psLoop r2)
        else if e = 't' then pre '\t' (psLoop r2)
        else if e = 'u' then
          match r2 with
          | h1 :: h2 :: h3 :: h4 :: r => preU h1 h2 h3 h4 (psLoop r)
          | _ => .ok (bsl :: 'u' :: (r2 ++ List.replicate (4 - r2.length) nulc), [])
        else .error (.synError "JSON: bad escape")
    else pre c (psLoop rest)

/-- `Parser::parse_string`: an opening quote, then the character loop. -/
def parse_string (l : List Char) : Except PErr (Json × List Char) := do
  let l ← expectC qch l
  let p ← psLoop l
  return (.str p.1, p.2)

/-- `Json::as_str` on the result of `parse_string` (used for object
keys); `parse_string` always returns a String, so the fallback branch is
unreachable. -/
def strOf : Json → List Char
  | .str s => s
  | _ => []

mutual
/-- `Parser::parse_value`: skips whitespace and dispatches on the next
character: `n` → null, `t`/`f` → bool, `"` → string, `-` or digit →
number, `{` → object, `[` → array, anything else is
`JSON: unexpected token`.  The object and array branches are
`parse_object` and `parse_array` inlined: opening bracket, the empty
case, then the element loop.  `fuel` bounds the recursion depth; the
top-level `parse` supplies more than any input can use, so the `fuel = 0`
branch is unreachable from `parse`. -/
def parse_value : Nat → List Char → Except PErr (Json × List Char)
  | 0, _ => .error (.synError "JSON: depth")
  | fuel + 1, l =>
    let l1 := skip_ws l
    let c := peekC l1
    if c = 'n' then parse_null l1
    else if c = 't' then parse_bool l1
    else if c = 'f' then parse_bool l1
    else if c = qch then parse_string l1
    else if c = '-' then parse_number l1
    else if isDigitC c then parse_number l1
    else if c = obr then do
      let l2 ← expectC obr l1
      let l3 := skip_ws l2
      if peekC l3 = cbr then .ok (.obj .nil, l3.tail)
      else do
        let p ← parse_object_items fuel .nil l3
        .ok (.obj p.1, p.2)
    else if c = '[' then do
      let l2 ← expectC '[' l1
      let l3 := skip_ws l2
      if peekC l3 = ']' then .ok (.arr .nil, l3.tail)
      else do
        let p ← parse_array_items fuel l3
        .ok (.arr p.1, p.2)
    else .error (.synError "JSON: unexpected token")
/-- The element loop of `parse_array`: a value, then `]` ends the array,
`,` continues it, and anything else (including end of input, where
`get()` yields `'\0'`) is an error. -/
def parse_array_items : Nat → List Char → Except PErr (JArr × List Char)
  | 0, _ => .error (.synError "JSON: depth")
  | fuel + 1, l => do
    let p ← parse_value fuel l
    match skip_ws p.2 with
    | [] => .error (.synError msgArrSep)
    | c :: r =>
      if c = ']' then .ok (.cons p.1 .nil, r)
      else if c = ',' then do
        let q ← parse_array_items fuel (skip_ws r)
        .ok (.cons p.1 q.1, q.2)
      else .error (.synError msgArrSep)
/-- The member loop of `parse_object`: whitespace, a double-quoted key
(anything else is `JSON: expected string key`), `:`, a value, then the
member is `emplace`d into the map (so a duplicate key leaves the earlier
binding in place); `}` ends the object, `,` continues it, anything else
is an error. -/
def parse_object_items : Nat → JObj → List Char → Except PErr (JObj × List Char)
  | 0, _, _ => .error (.synError "JSON: depth")
  | fuel + 1, acc, l => do
    let l1 := skip_ws l
    if peekC l1 = qch then do
      let kp ← parse_string l1
      let l2 ← expectC ':' (skip_ws kp.2)
      let vp ← parse_value fuel l2
      let acc2 := insertEmplace (strOf kp.1) vp.1 acc
      match skip_ws vp.2 with
      | [] => .error (.synError msgObjSep)
      | c :: r =>
        if c = cbr then .ok (acc2, r)
        else if c = ',' then parse_object_items fuel acc2 (skip_ws r)
        else .error (.synError msgObjSep)
    else .error (.synError "JSON: expected string key")
end

/-- `Json::parse`: parses one value, skips trailing whitespace and fails
with `JSON: trailing characters` unless the input is exhausted.  The fuel
`2 * length + 2` exceeds what any input can consume (each unit of fuel
spent on recursion consumes input). -/
def parse (l : List Char) : Except PErr Json := do
  let p ← parse_value (2 * l.length + 2) l
  if skip_ws p.2 = [] then return p.1
  else .error (.synError "JSON: trailing characters")

/-- A printable ASCII character needing no escaping: at least 0x20, below
0x7F, and neither a quote nor a backslash. -/
def PlainChar (c : Char) : Prop := 32 ≤ c.toNat ∧ c.toNat < 127 ∧ c ≠ qch ∧ c ≠ bsl

/-- A character whose `escape` output is decoded back to the character by
`parse_string`: anything at or above 0x20 (quote and backslash included),
or one of the five control characters with named short escapes. -/
def RoundChar (c : Char) : Prop :=
  32 ≤ c.toNat ∨ c = Char.ofNat 8 ∨ c = Char.ofNat 12 ∨ c = '\n' ∨ c = '\r' ∨ c = '\t'

/-- The characters `parse_value` dispatches on. -/
def dispatchB (c : Char) : Bool :=
  c == 'n' || c == 't' || c == 'f' || c == qch || c == '-' || isDigitC c || c == obr || c == '['

instance (c : Char) : Decidable (PlainChar c) := by unfold PlainChar; infer_instance

instance (c : Char) : Decidable (RoundChar c) := by unfold RoundChar; infer_instance

deriving instance DecidableEq for Json

/-- The text `{"x":1,"x":2}` (a duplicate key). -/
def c1in : List Char := [obr, qch, 'x', qch, ':', '1', ',', qch, 'x', qch, ':', '2', cbr]

/-- The text `"é"`: a quoted string holding one `\u` escape. -/
def c2text : List Char := [qch, bsl, 'u', '0', '0', 'e', '9', qch]

/-- The six characters backslash, `u`, `0`, `0`, `e`, `9`. -/
def c2content : List Char := [bsl, 'u', '0', '0', 'e', '9']

/-- The text `"\\u00e9"`: the dump of the string `é`, whose leading
backslash is escaped. -/
def c2dumped : List Char := [qch, bsl, bsl, 'u', '0', '0', 'e', '9', qch]

/-- A string holding a double quote, a backslash, a newline, a tab and
the control byte 0x01. -/
def c3str : List Char := [qch, bsl, '\n', '\t', Char.ofNat 1]

/-- What parsing the dump of `c3str` yields: the first four characters
come back, the 0x01 byte returns as the literal six characters `\u0001`. -/
def c3parsed : List Char := [qch, bsl, '\n', '\t', bsl, 'u', '0', '0', '0', '1']

/-- The text `{"b":1,"a":2}`. -/
def c7in : List Char := [obr, qch, 'b', qch, ':', '1', ',', qch, 'a', qch, ':', '2', cbr]

/-- The text `{"a":2,"b":1}`. -/
def c7out : List Char := [obr, qch, 'a', qch, ':', '2', ',', qch, 'b', qch, ':', '1', cbr]

/-- The number `9007199254740994 = 2^53 + 2`, exactly representable as a
double. -/
def bigDouble : ℚ := mkRat 9007199254740994 1

/-- The number `9007199254740990`, exactly representable as a double: the
value of the text `9.00719925474099e+15` that `dump` prints for
`bigDouble` (15 significant digits). -/
def bigDoubleBack : ℚ := mkRat 9007199254740990 1

mutual
/-- Every object anywhere inside the value satisfies the `std::map`
representation invariant: keys in strictly ascending order. -/
def jsonSorted : Json → Bool
  | .null => true
  | .bool _ => true
  | .num _ => true
  | .str _ => true
  | .arr a => jarrSorted a
  | .obj o => sortedKeys o && jobjSorted o
/-- `jsonSorted` at every element of an array. -/
def jarrSorted : JArr → Bool
  | .nil => true
  | .cons h t => jsonSorted h && jarrSorted t
/-- `jsonSorted` at every member value of an object. -/
def jobjSorted : JObj → Bool
  | .nil => true
  | .cons _ v t => jsonSorted v && jobjSorted t
end

/- ## Helper lemmas -/

theorem charToNat_inj {a b : Char} (h : a.toNat = b.toNat) : a = b := by
  rw [← Char.ofNat_toNat a, ← Char.ofNat_toNat b, h]

theorem strLess_irrefl : ∀ a, strLess a a = false
  | [] => rfl
  | _ :: t => by simp [strLess, strLess_irrefl t]

theorem strLess_trans : ∀ a b c, strLess a b = true → strLess b c = true → strLess a c = true
  | [], _, _ :: _, _, _ => rfl
  | [], b, [], _, hbc => by cases b <;> simp [strLess] at hbc
  | _ :: _, b, [], _, hbc => by cases b <;> simp [strLess] at hbc
  | _ :: _, [], _ :: _, hab, _ => by simp [strLess] at hab
  | c1 :: t1, c2 :: t2, c3 :: t3, hab, hbc => by
    simp only [strLess] at hab hbc ⊢
    split_ifs at hab hbc ⊢ <;>
      first
        | rfl
        | omega
        | exact strLess_trans t1 t2 t3 hab hbc

theorem strLess_total : ∀ a b, strLess a b = false → a ≠ b → strLess b a = true
  | [], [], _, hne => absurd rfl hne
  | [], _ :: _, hab, _ => by simp [strLess] at hab
  | _ :: _, [], _, _ => rfl
  | c1 :: t1, c2 :: t2, hab, hne => by
    simp only [strLess] at hab ⊢
    by_cases h12 : c1.toNat < c2.toNat
    · simp [h12] at hab
    · by_cases h21 : c2.toNat < c1.toNat
      · simp [h12, h21]
      · have hc : c1 = c2 := charToNat_inj (by omega)
        simp only [h12, if_false, h21, if_false] at hab
        simp only [h21, if_false, h12, if_false]
        refine strLess_total t1 t2 hab ?_
        intro he
        exact hne (by rw [hc, he])

theorem strLess_asymm {a b : List Char} (h1 : strLess a b = true)
    (h2 : strLess b a = true) : False := by
  have := strLess_trans a b a h1 h2
  simp [strLess_irrefl] at this

theorem ltAllKeys_mono {x y : List Char} (hxy : strLess x y = true) :
    ∀ o, ltAllKeys y o = true → ltAllKeys x o = true
  | .nil, _ => rfl
  | .cons k _ t, h => by
    simp only [ltAllKeys, Bool.and_eq_true] at h ⊢
    exact ⟨strLess_trans x y k hxy h.1, ltAllKeys_mono hxy t h.2⟩

theorem ltAllKeys_mem {x y : List Char} :
    ∀ o, ltAllKeys x o = true → keyMem y o = true → strLess x y = true
  | .nil, _, hm => by simp [keyMem] at hm
  | .cons k _ t, ha, hm => by
    simp only [ltAllKeys, Bool.and_eq_true] at ha
    simp only [keyMem] at hm
    by_cases he : y = k
    · rw [he]; exact ha.1
    · exact ltAllKeys_mem t ha.2 (by simpa [if_neg he] using hm)

theorem ltAllKeys_insert {x k : List Char} {v : Json} (hxk : strLess x k = true) :
    ∀ o, ltAllKeys x o = true → ltAllKeys x (insertEmplace k v o) = true
  | .nil, _ => by simp [insertEmplace, ltAllKeys, hxk]
  | .cons k' v' t, h => by
    simp only [ltAllKeys, Bool.and_eq_true] at h
    simp only [insertEmplace]
    split_ifs with h1 h2
    · simp only [ltAllKeys, Bool.and_eq_true]
      exact ⟨hxk, h.1, h.2⟩
    · simp only [ltAllKeys, Bool.and_eq_true]
      exact ⟨h.1, h.2⟩
    · simp only [ltAllKeys, Bool.and_eq_true]
      exact ⟨h.1, ltAllKeys_insert hxk t h.2⟩

theorem sorted_insertEmplace (k : List Char) (v : Json) :
    ∀ o, sortedKeys o = true → sortedKeys (insertEmplace k v o) = true
  | .nil, _ => by simp [insertEmplace, sortedKeys, ltAllKeys]
  | .cons k' v' t, h => by
    simp only [sortedKeys, Bool.and_eq_true] at h
    simp only [insertEmplace]
    split_ifs with h1 h2
    · simp only [sortedKeys, ltAllKeys, Bool.and_eq_true]
      exact ⟨⟨h1, ltAllKeys_mono h1 t h.1⟩, h.1, h.2⟩
    · simp only [sortedKeys, Bool.and_eq_true]
      exact ⟨h.1, h.2⟩
    · have h1' : strLess k k' = false := by simpa using h1
      have hk : strLess k' k = true := strLess_total k k' h1' h2
      simp only [sortedKeys, Bool.and_eq_true]
      exact ⟨ltAllKeys_insert hk t h.1, sorted_insertEmplace k v t h.2⟩

theorem ltAllKeys_jobjIndex {x k : List Char} (hxk : strLess x k = true) :
    ∀ o, ltAllKeys x o = true → ltAllKeys x (jobjIndex k o).1 = true
  | .nil, _ => by simp [jobjIndex, ltAllKeys, hxk]
  | .cons k' v' t, h => by
    simp only [ltAllKeys, Bool.and_eq_true] at h
    simp only [jobjIndex]
    split_ifs with h1 h2
    · simp only [ltAllKeys, Bool.and_eq_true]
      exact ⟨hxk, h.1, h.2⟩
    · simp only [ltAllKeys, Bool.and_eq_true]
      exact ⟨h.1, h.2⟩
    · simp only [ltAllKeys, Bool.and_eq_true]
      exact ⟨h.1, ltAllKeys_jobjIndex hxk t h.2⟩

theorem sorted_jobjIndex (k : List Char) :
    ∀ o, sortedKeys o = true → sortedKeys (jobjIndex k o).1 = true
  | .nil, _ => by simp [jobjIndex, sortedKeys, ltAllKeys]
  | .cons k' v' t, h => by
    simp only [sortedKeys, Bool.and_eq_true] at h
    simp only [jobjIndex]
    split_ifs with h1 h2
    · simp only [sortedKeys, ltAllKeys, Bool.and_eq_true]
      exact ⟨⟨h1, ltAllKeys_mono h1 t h.1⟩, h.1, h.2⟩
    · simp only [sortedKeys, Bool.and_eq_true]
      exact ⟨h.1, h.2⟩
    · have h1' : strLess k k' = false := by simpa using h1
      have hk : strLess k' k = true := strLess_total k k' h1' h2
      simp only [sortedKeys, Bool.and_eq_true]
      exact ⟨ltAllKeys_jobjIndex hk t h.1, sorted_jobjIndex k t h.2⟩

theorem insertEmplace_of_mem {k : List Char} {v : Json} :
    ∀ o, sortedKeys o = true → keyMem k o = true → insertEmplace k v o = o
  | .nil, _, hm => by simp [keyMem] at hm
  | .cons k' v' t, hs, hm => by
    simp only [sortedKeys, Bool.and_eq_true] at hs
    simp only [insertEmplace]
    split_ifs with h1 h2
    · exfalso
      by_cases he : k = k'
      · rw [he] at h1; simp [strLess_irrefl] at h1
      · have hmt : keyMem k t = true := by simpa [keyMem, if_neg he] using hm
        exact strLess_asymm h1 (ltAllKeys_mem t hs.1 hmt)
    · rfl
    · have hmt : keyMem k t = true := by simpa [keyMem, if_neg h2] using hm
      rw [insertEmplace_of_mem t hs.2 hmt]

theorem ltAllKeys_forall {x : List Char} :
    ∀ o, ltAllKeys x o = true → ∀ y ∈ keyList o, strLess x y = true
  | .nil, _, y, hy => by simp [keyList] at hy
  | .cons k _ t, h, y, hy => by
    simp only [ltAllKeys, Bool.and_eq_true] at h
    simp only [keyList, List.mem_cons] at hy
    rcases hy with rfl | hy
    · exact h.1
    · exact ltAllKeys_forall t h.2 y hy

theorem sorted_pairwise :
    ∀ o, sortedKeys o = true →
      (keyList o).Pairwise (fun a b => strLess a b = true)
  | .nil, _ => by simp [keyList]
  | .cons k _ t, h => by
    simp only [sortedKeys, Bool.and_eq_true] at h
    simp only [keyList, List.pairwise_cons]
    exact ⟨ltAllKeys_forall t h.1, sorted_pairwise t h.2⟩

theorem psLoop_plain : ∀ l, (∀ c ∈ l, c ≠ qch ∧ c ≠ bsl) → psLoop l = .ok (l, [])
  | [], _ => rfl
  | c :: rest, h => by
    have hc := h c (List.mem_cons_self ..)
    have ih := psLoop_plain rest (fun x hx => h x (List.mem_cons_of_mem _ hx))
    rw [psLoop.eq_def]
    simp only [if_neg hc.1, if_neg hc.2, ih, pre]

theorem escape_plain : ∀ s, (∀ c ∈ s, PlainChar c) → escape s = s
  | [], _ => rfl
  | c :: s, h => by
    obtain ⟨h32, _, hq, hb⟩ := h c (List.mem_cons_self ..)
    have ih := escape_plain s (fun x hx => h x (List.mem_cons_of_mem _ hx))
    have e8 : c ≠ Char.ofNat 8 := fun he => absurd (he ▸ h32) (by decide)
    have e12 : c ≠ Char.ofNat 12 := fun he => absurd (he ▸ h32) (by decide)
    have en : c ≠ '\n' := fun he => absurd (he ▸ h32) (by decide)
    have er : c ≠ '\r' := fun he => absurd (he ▸ h32) (by decide)
    have et : c ≠ '\t' := fun he => absurd (he ▸ h32) (by decide)
    simp only [escape, encChar, if_neg hq, if_neg hb, if_neg e8, if_neg e12, if_neg en,
      if_neg er, if_neg et, if_neg (by omega : ¬ c.toNat < 32), ih]
    rfl

theorem psLoop_escape : ∀ s rest, (∀ c ∈ s, RoundChar c) →
    psLoop (escape s ++ qch :: rest) = .ok (s, rest)
  | [], rest, _ => by rw [psLoop.eq_def]; rfl
  | c :: s, rest, h => by
    have hc := h c (List.mem_cons_self ..)
    have ih := psLoop_escape s rest (fun x hx => h x (List.mem_cons_of_mem _ hx))
    show psLoop (encChar c ++ escape s ++ qch :: rest) = .ok (c :: s, rest)
    rw [List.append_assoc]
    by_cases h1 : c = qch
    · subst h1
      rw [psLoop.eq_def]
      show pre qch (psLoop (escape s ++ qch :: rest)) = _
      rw [ih]; rfl
    · by_cases h2 : c = bsl
      · subst h2
        rw [psLoop.eq_def]
        show pre bsl (psLoop (escape s ++ qch :: rest)) = _
        rw [ih]; rfl
      · by_cases h3 : c = Char.ofNat 8
        · subst h3
          rw [psLoop.eq_def]
          show pre (Char.ofNat 8) (psLoop (escape s ++ qch :: rest)) = _
          rw [ih]; rfl
        · by_cases h4 : c = Char.ofNat 12
          · subst h4
            rw [psLoop.eq_def]
            show pre (Char.ofNat 12) (psLoop (escape s ++ qch :: rest)) = _
            rw [ih]; rfl
          · by_cases h5 : c = '\n'
            · subst h5
              rw [psLoop.eq_def]
              show pre '\n' (psLoop (escape s ++ qch :: rest)) = _
              rw [ih]; rfl
            · by_cases h6 : c = '\r'
              · subst h6
                rw [psLoop.eq_def]
                show pre '\r' (psLoop (escape s ++ qch :: rest)) = _
                rw [ih]; rfl
              · by_cases h7 : c = '\t'
                · subst h7
                  rw [psLoop.eq_def]
                  show pre '\t' (psLoop (escape s ++ qch :: rest)) = _
                  rw [ih]; rfl
                · have h32 : 32 ≤ c.toNat := by
                    rcases hc with h32 | he | he | he | he | he
                    · exact h32
                    all_goals exact absurd he (by assumption)
                  have henc : encChar c = [c] := by
                    simp only [encChar, if_neg h1, if_neg h2, if_neg h3, if_neg h4,
                      if_neg h5, if_neg h6, if_neg h7,
                      if_neg (by omega : ¬ c.toNat < 32)]
                  rw [henc]
                  simp only [List.cons_append, List.nil_append]
                  rw [psLoop.eq_def]
                  simp only [if_neg h1, if_neg h2, ih, pre]

theorem parse_quote_eq (l : List Char) :
    parse (qch :: l) = ((psLoop l).bind fun p => Except.ok (Json.str p.1, p.2)).bind
      (fun p => if skip_ws p.2 = [] then Except.ok p.1
        else Except.error (.synError "JSON: trailing characters")) := rfl

theorem parse_unexpected {l : List Char} {c : Char}
    (hhead : (skip_ws l).head? = some c) (hd : dispatchB c = false) :
    parse l = .error (.synError "JSON: unexpected token") := by
  obtain ⟨t, hsk⟩ : ∃ t, skip_ws l = c :: t := by
    cases hq : skip_ws l with
    | nil => rw [hq] at hhead; simp at hhead
    | cons a t =>
      rw [hq] at hhead
      simp only [List.head?_cons, Option.some.injEq] at hhead
      exact ⟨t, by rw [hhead]⟩
  simp only [dispatchB, Bool.or_eq_false_iff, beq_eq_false_iff_ne, ne_eq] at hd
  obtain ⟨⟨⟨⟨⟨⟨⟨hn, ht⟩, hf⟩, hq'⟩, hm⟩, hdig⟩, ho⟩, hb⟩ := hd
  have hv : parse_value (2 * l.length + 2) l =
      .error (.synError "JSON: unexpected token") := by
    rw [show 2 * l.length + 2 = (2 * l.length + 1) + 1 from rfl]
    simp only [parse_value, hsk, peekC, if_neg hn, if_neg ht, if_neg hf, if_neg hq',
      if_neg hm, hdig, if_neg ho, if_neg hb, Bool.false_eq_true, if_false]
  simp only [parse, hv]
  rfl

theorem parse_dump_str (s : List Char) (h : ∀ c ∈ s, RoundChar c) :
    parse (dump (.str s) (-1)) = .ok (.str s) := by
  show parse (qch :: (escape s ++ [qch])) = .ok (.str s)
  rw [parse_quote_eq, psLoop_escape s [] h]
  rfl

theorem parse_unterminated (l : List Char) (h : ∀ c ∈ l, c ≠ qch ∧ c ≠ bsl) :
    parse (qch :: l) = .ok (.str l) := by
  rw [parse_quote_eq, psLoop_plain l h]
  rfl

theorem exbind_ok {α β : Type} {x : Except PErr α} {f : α → Except PErr β} {b : β}
    (h : (x >>= f) = .ok b) : ∃ a, x = .ok a ∧ f a = .ok b := by
  cases x with
  | error e => exact absurd h (by simp [Bind.bind, Except.bind])
  | ok a => exact ⟨a, rfl, by simpa [Bind.bind, Except.bind] using h⟩

theorem jobjSorted_insert {k : List Char} {v : Json} (hv : jsonSorted v = true) :
    ∀ o, jobjSorted o = true → jobjSorted (insertEmplace k v o) = true
  | .nil, _ => by simp [insertEmplace, jobjSorted, hv]
  | .cons k' v' t, h => by
    simp only [jobjSorted, Bool.and_eq_true] at h
    simp only [insertEmplace]
    split_ifs
    · simp only [jobjSorted, Bool.and_eq_true]
      exact ⟨hv, h.1, h.2⟩
    · simp only [jobjSorted, Bool.and_eq_true]
      exact ⟨h.1, h.2⟩
    · simp only [jobjSorted, Bool.and_eq_true]
      exact ⟨h.1, jobjSorted_insert hv t h.2⟩

theorem parse_null_shape {l : List Char} {j : Json} {r : List Char}
    (h : parse_null l = .ok (j, r)) : j = .null := by
  unfold parse_null at h
  obtain ⟨l1, -, h⟩ := exbind_ok h
  obtain ⟨l2, -, h⟩ := exbind_ok h
  obtain ⟨l3, -, h⟩ := exbind_ok h
  obtain ⟨l4, -, h⟩ := exbind_ok h
  simp only [pure, Except.pure, Except.ok.injEq, Prod.mk.injEq] at h
  exact h.1.symm

theorem parse_bool_shape {l : List Char} {j : Json} {r : List Char}
    (h : parse_bool l = .ok (j, r)) : ∃ b, j = .bool b := by
  unfold parse_bool at h
  split at h <;>
  · obtain ⟨l1, -, h⟩ := exbind_ok h
    obtain ⟨l2, -, h⟩ := exbind_ok h
    obtain ⟨l3, -, h⟩ := exbind_ok h
    obtain ⟨l4, -, h⟩ := exbind_ok h
    try obtain ⟨l5, -, h⟩ := exbind_ok h
    simp only [pure, Except.pure, Except.ok.injEq, Prod.mk.injEq] at h
    exact ⟨_, h.1.symm⟩

theorem parse_string_shape {l : List Char} {j : Json} {r : List Char}
    (h : parse_string l = .ok (j, r)) : ∃ s, j = .str s := by
  unfold parse_string at h
  obtain ⟨l1, -, h⟩ := exbind_ok h
  obtain ⟨p, -, h⟩ := exbind_ok h
  simp only [pure, Except.pure, Except.ok.injEq, Prod.mk.injEq] at h
  exact ⟨_, h.1.symm⟩

theorem ite_error_ok {α : Type} {c : Prop} [Decidable c] {e : PErr} {v jr : α}
    (h : (if c then Except.error e else Except.ok v) = Except.ok jr) : v = jr := by
  split at h
  · simp at h
  · injection h with h

theorem parse_number_shape {l : List Char} {j : Json} {r : List Char}
    (h : parse_number l = .ok (j, r)) : ∃ q, j = .num q := by
  unfold parse_number at h
  by_cases hm : peekC l = '-'
  case pos =>
    simp only [if_pos hm] at h
    obtain ⟨p1, -, h⟩ := exbind_ok h
    obtain ⟨ids, l2⟩ := p1
    obtain ⟨p2, -, h⟩ := exbind_ok h
    obtain ⟨fds, l3⟩ := p2
    obtain ⟨p3, -, h⟩ := exbind_ok h
    obtain ⟨eneg, eds, l4⟩ := p3
    dsimp only at h
    have h2 := ite_error_ok h
    simp only [Prod.mk.injEq] at h2
    exact ⟨_, h2.1.symm⟩
  case neg =>
    simp only [if_neg hm] at h
    obtain ⟨p1, -, h⟩ := exbind_ok h
    obtain ⟨ids, l2⟩ := p1
    obtain ⟨p2, -, h⟩ := exbind_ok h
    obtain ⟨fds, l3⟩ := p2
    obtain ⟨p3, -, h⟩ := exbind_ok h
    obtain ⟨eneg, eds, l4⟩ := p3
    dsimp only at h
    have h2 := ite_error_ok h
    simp only [Prod.mk.injEq] at h2
    exact ⟨_, h2.1.symm⟩

theorem parse_sorted_aux : ∀ fuel : Nat,
    (∀ l j r, parse_value fuel l = .ok (j, r) → jsonSorted j = true) ∧
    (∀ l a r, parse_array_items fuel l = .ok (a, r) → jarrSorted a = true) ∧
    (∀ acc l o r, sortedKeys acc = true → jobjSorted acc = true →
      parse_object_items fuel acc l = .ok (o, r) →
      sortedKeys o = true ∧ jobjSorted o = true) := by
  intro fuel
  induction fuel with
  | zero =>
    refine ⟨fun l j r h => ?_, fun l a r h => ?_, fun acc l o r h1 h2 h => ?_⟩ <;>
      simp [parse_value, parse_array_items, parse_object_items] at h
  | succ fuel ih =>
    obtain ⟨ihv, iha, iho⟩ := ih
    refine ⟨fun l j r h => ?_, fun l a r h => ?_, fun acc l o r hs0 hj0 h => ?_⟩
    · rw [parse_value] at h
      split at h
      · rw [parse_null_shape h]; rfl
      · split at h
        · obtain ⟨b, hb⟩ := parse_bool_shape h; rw [hb]; rfl
        · split at h
          · obtain ⟨b, hb⟩ := parse_bool_shape h; rw [hb]; rfl
          · split at h
            · obtain ⟨s, hs⟩ := parse_string_shape h; rw [hs]; rfl
            · split at h
              · obtain ⟨q, hq⟩ := parse_number_shape h; rw [hq]; rfl
              · split at h
                · obtain ⟨q, hq⟩ := parse_number_shape h; rw [hq]; rfl
                · split at h
                  · -- object branch
                    obtain ⟨l2, -, h⟩ := exbind_ok h
                    dsimp only at h
                    split at h
                    · simp only [Except.ok.injEq, Prod.mk.injEq] at h
                      rw [← h.1]; rfl
                    · obtain ⟨p, hp, h⟩ := exbind_ok h
                      obtain ⟨o, r2⟩ := p
                      obtain ⟨hs, hj⟩ := iho JObj.nil _ o r2 rfl rfl hp
                      simp only [Except.ok.injEq, Prod.mk.injEq] at h
                      rw [← h.1]
                      simp [jsonSorted, hs, hj]
                  · split at h
                    · -- array branch
                      obtain ⟨l2, -, h⟩ := exbind_ok h
                      dsimp only at h
                      split at h
                      · simp only [Except.ok.injEq, Prod.mk.injEq] at h
                        rw [← h.1]; rfl
                      · obtain ⟨p, hp, h⟩ := exbind_ok h
                        obtain ⟨a, r2⟩ := p
                        have ha := iha _ a r2 hp
                        simp only [Except.ok.injEq, Prod.mk.injEq] at h
                        rw [← h.1]
                        simpa [jsonSorted] using ha
                    · exact absurd h (by simp)
    · rw [parse_array_items] at h
      obtain ⟨p, hp, h⟩ := exbind_ok h
      obtain ⟨v, r1⟩ := p
      have hv := ihv l v r1 hp
      split at h
      · exact absurd h (by simp)
      · split at h
        · simp only [Except.ok.injEq, Prod.mk.injEq] at h
          rw [← h.1]
          simp [jarrSorted, hv]
        · split at h
          · obtain ⟨q, hq, h⟩ := exbind_ok h
            obtain ⟨a2, r2⟩ := q
            have ht := iha _ a2 r2 hq
            simp only [Except.ok.injEq, Prod.mk.injEq] at h
            rw [← h.1]
            simp [jarrSorted, hv, ht]
          · exact absurd h (by simp)
    · rw [parse_object_items] at h
      split at h
      · obtain ⟨kp, -, h⟩ := exbind_ok h
        obtain ⟨kj, r1⟩ := kp
        obtain ⟨l2, -, h⟩ := exbind_ok h
        obtain ⟨vp, hvp, h⟩ := exbind_ok h
        obtain ⟨v, r2⟩ := vp
        have hv := ihv _ v r2 hvp
        have hs2 : sortedKeys (insertEmplace (strOf kj) v acc) = true :=
          sorted_insertEmplace _ _ acc hs0
        have hj2 : jobjSorted (insertEmplace (strOf kj) v acc) = true :=
          jobjSorted_insert hv acc hj0
        split at h
        · exact absurd h (by simp)
        · split at h
          · simp only [Except.ok.injEq, Prod.mk.injEq] at h
            rw [← h.1]
            exact ⟨hs2, hj2⟩
          · split at h
            · exact iho _ _ o r hs2 hj2 h
            · exact absurd h (by simp)
      · exact absurd h (by simp)

/-- Every value `parse` returns satisfies the sorted-keys invariant at
every nesting level: the parser builds objects only through
`std::map::emplace`. -/
theorem parse_sorted (l : List Char) (j : Json) (h : parse l = .ok j) :
    jsonSorted j = true := by
  unfold parse at h
  obtain ⟨p, hp, h⟩ := exbind_ok h
  obtain ⟨j0, r0⟩ := p
  split at h
  · simp only [pure, Except.pure, Except.ok.injEq] at h
    rw [← h]
    exact (parse_sorted_aux _).1 l j0 r0 hp
  · exact absurd h (by simp)


theorem natDigitsA_acc : ∀ fuel n acc, natDigitsA fuel n acc = natDigitsA fuel n [] ++ acc
  | 0, _, _ => rfl
  | fuel + 1, n, acc => by
    simp only [natDigitsA]
    split_ifs with h
    · rfl
    · rw [natDigitsA_acc fuel (n / 10) (Char.ofNat (48 + n % 10) :: acc),
          natDigitsA_acc fuel (n / 10) [Char.ofNat (48 + n % 10)], List.append_assoc]
      rfl

theorem natDigitsA_zero_n : ∀ fuel, natDigitsA fuel 0 [] = []
  | 0 => rfl
  | _ + 1 => by simp [natDigitsA]

theorem natDigitsA_fuel (n : ℕ) : ∀ fuel fuel2, n ≤ fuel → n ≤ fuel2 →
    natDigitsA fuel n [] = natDigitsA fuel2 n [] := by
  induction n using Nat.strong_induction_on with
  | _ n ih =>
    intro fuel fuel2 h1 h2
    by_cases hz : n = 0
    · rw [hz, natDigitsA_zero_n, natDigitsA_zero_n]
    · obtain ⟨f, rfl⟩ : ∃ f, fuel = f + 1 := ⟨fuel - 1, by omega⟩
      obtain ⟨g, rfl⟩ : ∃ g, fuel2 = g + 1 := ⟨fuel2 - 1, by omega⟩
      have hdiv : n / 10 < n := Nat.div_lt_self (by omega) (by omega)
      simp only [natDigitsA, if_neg hz]
      rw [natDigitsA_acc f, natDigitsA_acc g,
        ih (n / 10) hdiv f g (by omega) (by omega)]

theorem natDigits_small (n : ℕ) (h1 : 1 ≤ n) (h2 : n < 10) :
    natDigits n = [Char.ofNat (48 + n)] := by
  obtain ⟨m, rfl⟩ : ∃ m, n = m + 1 := ⟨n - 1, by omega⟩
  simp only [natDigits, if_neg (by omega : ¬ m + 1 = 0), natDigitsA,
    Nat.div_eq_of_lt h2, Nat.mod_eq_of_lt h2]
  simp

theorem natDigits_step (n : ℕ) (h : 10 ≤ n) :
    natDigits n = natDigits (n / 10) ++ [Char.ofNat (48 + n % 10)] := by
  have hd1 : 1 ≤ n / 10 := (Nat.one_le_div_iff (by omega)).mpr h
  simp only [natDigits, if_neg (by omega : ¬ n = 0), if_neg (by omega : ¬ n / 10 = 0)]
  rw [show natDigitsA (n + 1) n [] = natDigitsA n (n / 10) [Char.ofNat (48 + n % 10)] by
      simp only [natDigitsA, if_neg (by omega : ¬ n = 0)]]
  rw [natDigitsA_acc]
  rw [natDigitsA_fuel (n / 10) n (n / 10 + 1) (by omega) (by omega)]

theorem toNat_digitChar (d : ℕ) (h : d < 10) : (Char.ofNat (48 + d)).toNat = 48 + d := by
  interval_cases d <;> decide

theorem digitsVal_from (s : ℕ) : ∀ b : List Char,
    b.foldl (fun a c => a * 10 + (c.toNat - 48)) s =
      s * 10 ^ b.length + b.foldl (fun a c => a * 10 + (c.toNat - 48)) 0 := by
  intro b
  induction b generalizing s with
  | nil => simp
  | cons c t iht =>
    simp only [List.foldl_cons, List.length_cons]
    rw [iht (s * 10 + (c.toNat - 48)), iht (0 * 10 + (c.toNat - 48))]
    ring

theorem digitsVal_append (a b : List Char) :
    digitsVal (a ++ b) = digitsVal a * 10 ^ b.length + digitsVal b := by
  simp only [digitsVal, List.foldl_append]
  exact digitsVal_from (digitsVal a) b

theorem digitsVal_natDigits : ∀ n, digitsVal (natDigits n) = n := by
  intro n
  induction n using Nat.strong_induction_on with
  | _ n ih =>
    by_cases h10 : n < 10
    · by_cases hz : n = 0
      · rw [hz]; decide
      · rw [natDigits_small n (by omega) h10]
        simp [digitsVal, toNat_digitChar n h10]
    · rw [natDigits_step n (by omega), digitsVal_append,
        ih (n / 10) (Nat.div_lt_self (by omega) (by omega))]
      simp only [List.length_singleton, pow_one, digitsVal, List.foldl_cons, List.foldl_nil]
      rw [toNat_digitChar (n % 10) (Nat.mod_lt _ (by omega))]
      omega

theorem natDigits_all_digits : ∀ n, ∀ c ∈ natDigits n, isDigitC c = true := by
  intro n
  induction n using Nat.strong_induction_on with
  | _ n ih =>
    by_cases h10 : n < 10
    · by_cases hz : n = 0
      · rw [hz]; decide
      · rw [natDigits_small n (by omega) h10]
        intro c hc
        simp only [List.mem_singleton] at hc
        rw [hc]
        simp [isDigitC, toNat_digitChar n h10]
        omega
    · rw [natDigits_step n (by omega)]
      intro c hc
      rw [List.mem_append] at hc
      rcases hc with hc | hc
      · exact ih (n / 10) (Nat.div_lt_self (by omega) (by omega)) c hc
      · simp only [List.mem_singleton] at hc
        rw [hc]
        have := Nat.mod_lt n (show 0 < 10 by omega)
        simp [isDigitC, toNat_digitChar (n % 10) this]
        omega

theorem natDigits_ne_nil : ∀ n, natDigits n ≠ [] := by
  intro n
  by_cases h10 : n < 10
  · by_cases hz : n = 0
    · rw [hz]; decide
    · rw [natDigits_small n (by omega) h10]; simp
  · rw [natDigits_step n (by omega)]; simp

theorem natDigits_head_ne_48 : ∀ n, 1 ≤ n → ∀ c t, natDigits n = c :: t → c.toNat ≠ 48 := by
  intro n
  induction n using Nat.strong_induction_on with
  | _ n ih =>
    intro h1 c t hct
    by_cases h10 : n < 10
    · rw [natDigits_small n h1 h10] at hct
      simp only [List.cons.injEq] at hct
      rw [← hct.1, toNat_digitChar n h10]
      omega
    · rw [natDigits_step n (by omega)] at hct
      obtain ⟨c', t', hc'⟩ : ∃ c' t', natDigits (n / 10) = c' :: t' := by
        cases hq : natDigits (n / 10) with
        | nil => exact absurd hq (natDigits_ne_nil _)
        | cons a b => exact ⟨a, b, rfl⟩
      rw [hc'] at hct
      simp only [List.cons_append, List.cons.injEq] at hct
      rw [← hct.1]
      exact ih (n / 10) (Nat.div_lt_self (by omega) (by omega))
        ((Nat.one_le_div_iff (by omega)).mpr (by omega)) c' t' hc'

theorem natLog10A_fuel (n : ℕ) : ∀ fuel fuel2, n ≤ fuel → n ≤ fuel2 →
    natLog10A fuel n = natLog10A fuel2 n := by
  induction n using Nat.strong_induction_on with
  | _ n ih =>
    intro fuel fuel2 h1 h2
    by_cases h10 : n < 10
    · obtain hf | hf := Nat.eq_zero_or_pos fuel <;> obtain hg | hg := Nat.eq_zero_or_pos fuel2
      · rw [hf, hg]
      · obtain ⟨g, rfl⟩ : ∃ g, fuel2 = g + 1 := ⟨fuel2 - 1, by omega⟩
        rw [hf]; simp [natLog10A, h10]
      · obtain ⟨f, rfl⟩ : ∃ f, fuel = f + 1 := ⟨fuel - 1, by omega⟩
        rw [hg]; simp [natLog10A, h10]
      · obtain ⟨f, rfl⟩ : ∃ f, fuel = f + 1 := ⟨fuel - 1, by omega⟩
        obtain ⟨g, rfl⟩ : ∃ g, fuel2 = g + 1 := ⟨fuel2 - 1, by omega⟩
        simp [natLog10A, h10]
    · obtain ⟨f, rfl⟩ : ∃ f, fuel = f + 1 := ⟨fuel - 1, by omega⟩
      obtain ⟨g, rfl⟩ : ∃ g, fuel2 = g + 1 := ⟨fuel2 - 1, by omega⟩
      have hdiv : n / 10 < n := Nat.div_lt_self (by omega) (by omega)
      simp only [natLog10A, if_neg (by omega : ¬ n < 10)]
      rw [ih (n / 10) hdiv f g (by omega) (by omega)]

theorem natLog10_small (n : ℕ) (h : n < 10) : natLog10 n = 0 := by
  unfold natLog10
  obtain hf | hf := Nat.eq_zero_or_pos n
  · rw [hf]; rfl
  · obtain ⟨m, rfl⟩ : ∃ m, n = m + 1 := ⟨n - 1, by omega⟩
    simp [natLog10A, h]

theorem natLog10_step (n : ℕ) (h : 10 ≤ n) : natLog10 n = natLog10 (n / 10) + 1 := by
  unfold natLog10
  obtain ⟨f, hf⟩ : ∃ f, n = f + 1 := ⟨n - 1, by omega⟩
  rw [hf]
  simp only [natLog10A, if_neg (by omega : ¬ f + 1 < 10)]
  rw [← hf]
  exact congrArg (· + 1)
    (natLog10A_fuel (n / 10) f (n / 10) (by omega) (by omega))

theorem natLog10_bounds : ∀ n, 1 ≤ n →
    10 ^ natLog10 n ≤ n ∧ n < 10 ^ (natLog10 n + 1) := by
  intro n
  induction n using Nat.strong_induction_on with
  | _ n ih =>
    intro h1
    by_cases h10 : n < 10
    · rw [natLog10_small n h10]
      simpa using ⟨h1, h10⟩
    · have hdiv : n / 10 < n := Nat.div_lt_self (by omega) (by omega)
      have hd1 : 1 ≤ n / 10 := (Nat.one_le_div_iff (by omega)).mpr (by omega)
      obtain ⟨hlo, hhi⟩ := ih (n / 10) hdiv hd1
      rw [natLog10_step n (by omega)]
      constructor
      · calc 10 ^ (natLog10 (n / 10) + 1) = 10 ^ natLog10 (n / 10) * 10 := by ring
        _ ≤ (n / 10) * 10 := by exact Nat.mul_le_mul_right 10 hlo
        _ ≤ n := by omega
      · have h2 : n / 10 + 1 ≤ 10 ^ (natLog10 (n / 10) + 1) := hhi
        calc n < (n / 10 + 1) * 10 := by omega
        _ ≤ 10 ^ (natLog10 (n / 10) + 1) * 10 := Nat.mul_le_mul_right 10 h2
        _ = 10 ^ (natLog10 (n / 10) + 1 + 1) := by ring

theorem natDigits_length : ∀ n, (natDigits n).length = natLog10 n + 1 := by
  intro n
  induction n using Nat.strong_induction_on with
  | _ n ih =>
    by_cases h10 : n < 10
    · by_cases hz : n = 0
      · rw [hz]; decide
      · rw [natDigits_small n (by omega) h10, natLog10_small n h10]
        rfl
    · rw [natDigits_step n (by omega), natLog10_step n (by omega)]
      simp only [List.length_append, List.length_singleton]
      rw [ih (n / 10) (Nat.div_lt_self (by omega) (by omega))]

theorem natDigits_mul_ten (k : ℕ) (h : 1 ≤ k) :
    natDigits (k * 10) = natDigits k ++ [Char.ofNat 48] := by
  rw [natDigits_step (k * 10) (by omega)]
  simp [Nat.mul_div_cancel, Nat.mul_mod_left]

theorem natDigits_mul_pow (k : ℕ) (h : 1 ≤ k) :
    ∀ m, natDigits (k * 10 ^ m) = natDigits k ++ List.replicate m (Char.ofNat 48)
  | 0 => by simp
  | m + 1 => by
    have hk : 1 ≤ k * 10 ^ m := Nat.one_le_iff_ne_zero.mpr (by positivity)
    rw [pow_succ, ← mul_assoc, natDigits_mul_ten _ hk, natDigits_mul_pow k h m,
      List.append_assoc, ← List.replicate_succ']

theorem stripZeros_replicate_48 (m : ℕ) :
    stripZeros (List.replicate m (Char.ofNat 48)) = [] := by
  unfold stripZeros
  rw [List.reverse_replicate]
  induction m with
  | zero => rfl
  | succ m ihm =>
    rw [List.replicate_succ, List.dropWhile_cons]
    simpa using ihm


theorem roundHalfEven_den_one (n : ℕ) : roundHalfEven n 1 = n := by
  simp [roundHalfEven, Nat.mod_one]

theorem mkRat_le_mkRat {a b : ℤ} : mkRat a 1 ≤ mkRat b 1 ↔ a ≤ b := by
  rw [Rat.mkRat_one, Rat.mkRat_one, Int.cast_le]

theorem qpow10_nat (m : ℕ) : qpow10 (m : ℤ) = mkRat ((10 ^ m : ℕ) : ℤ) 1 := by
  simp [qpow10]

theorem mkRat_int_num (a : ℤ) : (mkRat a 1).num = a := by
  rw [Rat.mkRat_one]; exact Rat.num_intCast a

theorem mkRat_int_den (a : ℤ) : (mkRat a 1).den = 1 := by
  rw [Rat.mkRat_one]; exact Rat.den_intCast a

theorem qFloorLog10_nat (k : ℕ) (h1 : 1 ≤ k) : qFloorLog10 (mkRat (k : ℤ) 1) = natLog10 k := by
  obtain ⟨hlo, hhi⟩ := natLog10_bounds k h1
  have hc1 : ¬ qpow10 ((natLog10 k : ℤ) + 1) ≤ mkRat ((k : ℕ) : ℤ) 1 := by
    rw [show ((natLog10 k : ℤ) + 1) = ((natLog10 k + 1 : ℕ) : ℤ) by push_cast; ring,
      qpow10_nat, mkRat_le_mkRat]
    exact_mod_cast Nat.not_le.mpr hhi
  have hc2 : qpow10 ((natLog10 k : ℤ)) ≤ mkRat ((k : ℕ) : ℤ) 1 := by
    rw [qpow10_nat, mkRat_le_mkRat]
    exact_mod_cast hlo
  simp only [qFloorLog10, mkRat_int_num, mkRat_int_den, Int.toNat_natCast]
  have hlog1 : natLog10 1 = 0 := rfl
  rw [hlog1]
  have ha : ((natLog10 k : ℤ) - ((0 : ℕ) : ℤ)) = ((natLog10 k : ℕ) : ℤ) := by push_cast; ring
  rw [ha, if_neg hc1, if_pos hc2]

theorem fmtNum_int (k : ℕ) (h1 : 1 ≤ k) (h2 : k < 10 ^ 15) :
    fmtNum (mkRat (k : ℤ) 1) = natDigits k := by
  obtain ⟨hlo, hhi⟩ := natLog10_bounds k h1
  have hL15 : natLog10 k < 15 := by
    by_contra hcon
    have h10 : (10 : ℕ) ^ 15 ≤ 10 ^ natLog10 k := Nat.pow_le_pow_right (by omega) (by omega)
    omega
  have hq0 : ¬ mkRat ((k : ℕ) : ℤ) 1 = 0 := by
    rw [Rat.mkRat_one]
    simp only [ne_eq, Int.cast_eq_zero, Nat.cast_eq_zero]
    omega
  have hqneg : ¬ mkRat ((k : ℕ) : ℤ) 1 < 0 := by
    rw [Rat.mkRat_one, not_lt]
    push_cast
    positivity
  simp only [fmtNum, if_neg hq0, if_neg hqneg, fmtPos, qFloorLog10_nat k h1,
    mkRat_int_num, mkRat_int_den, Int.toNat_natCast]
  have hsh : (0 : ℤ) ≤ 14 - (natLog10 k : ℤ) := by omega
  rw [if_pos hsh, if_pos hsh]
  have hshn : ((14 : ℤ) - (natLog10 k : ℤ)).toNat = 14 - natLog10 k := by omega
  rw [hshn, roundHalfEven_den_one]
  have hm15 : ¬ k * 10 ^ (14 - natLog10 k) = 10 ^ 15 := by
    have hp : 0 < (10 : ℕ) ^ (14 - natLog10 k) := Nat.pos_pow_of_pos _ (by omega)
    have hk1 : k * 10 ^ (14 - natLog10 k) < 10 ^ (natLog10 k + 1) * 10 ^ (14 - natLog10 k) :=
      (mul_lt_mul_right hp).mpr hhi
    rw [← pow_add] at hk1
    have he : natLog10 k + 1 + (14 - natLog10 k) = 15 := by omega
    rw [he] at hk1
    omega
  rw [if_neg hm15, if_neg hm15]
  have hfix : (-4 : ℤ) ≤ (natLog10 k : ℤ) ∧ (natLog10 k : ℤ) < 15 := by
    constructor <;> omega
  rw [if_pos hfix, natDigits_mul_pow k h1 (14 - natLog10 k)]
  simp only [fmtFixed, if_pos (by omega : (0 : ℤ) ≤ (natLog10 k : ℤ)), Int.toNat_natCast]
  have hlen : natLog10 k + 1 = (natDigits k).length := (natDigits_length k).symm
  rw [hlen, List.take_left, List.drop_left, stripZeros_replicate_48]
  simp


theorem ok_bind {α β : Type} (a : α) (f : α → Except PErr β) :
    ((Except.ok a : Except PErr α) >>= f) = f a := rfl

theorem digit_bounds (c : Char) (h : isDigitC c = true) : 48 ≤ c.toNat ∧ c.toNat ≤ 57 := by
  simpa [isDigitC] using h

theorem digit_not_space (c : Char) (h : isDigitC c = true) : isSpaceC c = false := by
  have hb := digit_bounds c h
  simp only [isSpaceC, Bool.or_eq_false_iff, beq_eq_false_iff_ne, ne_eq]
  refine ⟨⟨⟨⟨⟨fun he => ?_, fun he => ?_⟩, fun he => ?_⟩, fun he => ?_⟩, fun he => ?_⟩,
    fun he => ?_⟩ <;> (rw [he] at hb; revert hb; decide)

theorem digit_ne (c : Char) (h : isDigitC c = true) (a : Char)
    (ha : a.toNat < 48 ∨ 57 < a.toNat) : ¬ c = a := by
  have hb := digit_bounds c h
  intro he
  rw [he] at hb
  omega

theorem skip_ws_digits (c : Char) (t : List Char) (h : isDigitC c = true) :
    skip_ws (c :: t) = c :: t := by
  simp [skip_ws, List.dropWhile_cons, digit_not_space c h]

theorem scanInt_digits (k : ℕ) (h1 : 1 ≤ k) :
    scanInt (natDigits k) = .ok (natDigits k, []) := by
  obtain ⟨c, t, hl⟩ : ∃ c t, natDigits k = c :: t := by
    cases hh : natDigits k with
    | nil => exact absurd hh (natDigits_ne_nil k)
    | cons c t => exact ⟨c, t, rfl⟩
  have hc : isDigitC c = true := natDigits_all_digits k c (by rw [hl]; exact List.mem_cons_self c t)
  have hc0 : c.toNat ≠ 48 := natDigits_head_ne_48 k h1 c t hl
  have hp : peekC (natDigits k) = c := by rw [hl]; rfl
  have h0 : ¬ peekC (natDigits k) = '0' := by
    rw [hp]
    intro he
    rw [he] at hc0
    exact hc0 rfl
  rw [scanInt, if_neg h0, if_pos (by rw [hp]; exact hc)]
  rw [List.takeWhile_eq_self_iff.mpr (natDigits_all_digits k),
    List.dropWhile_eq_nil_iff.mpr (natDigits_all_digits k)]

theorem numValue_int (k : ℕ) :
    numValue false (natDigits k) [] false [] = mkRat ((k : ℕ) : ℤ) 1 := by
  simp [numValue, digitsVal_natDigits, show digitsVal [] = 0 from rfl]

theorem pow2_chain : (10 : ℕ) ^ 15 ≤ 2 ^ 1024 - 2 ^ 971 := by
  have e1 : (10 : ℕ) ^ 15 ≤ 16 ^ 15 := Nat.pow_le_pow_left (by omega) 15
  have e2 : (16 : ℕ) ^ 15 = 2 ^ 60 := by
    rw [show (16 : ℕ) = 2 ^ 4 from rfl, ← pow_mul]
  have e3 : (2 : ℕ) ^ 60 ≤ 2 ^ 971 := Nat.pow_le_pow_right (by omega) (by omega)
  have e4 : (2 : ℕ) ^ 971 * 2 ≤ 2 ^ 1024 := by
    rw [← pow_succ (2 : ℕ) 971]
    exact Nat.pow_le_pow_right (by omega) (by omega)
  omega

theorem mkRat_nat_nonneg (k : ℕ) : ¬ mkRat ((k : ℕ) : ℤ) 1 < 0 := by
  rw [Rat.mkRat_one, not_lt]
  push_cast
  positivity

theorem no_overflow (k : ℕ) (h2 : k < 10 ^ 15) : ¬ dblMax < mkRat ((k : ℕ) : ℤ) 1 := by
  rw [not_lt]
  unfold dblMax
  rw [mkRat_le_mkRat]
  have hk : k ≤ 2 ^ 1024 - 2 ^ 971 := le_trans (Nat.le_of_lt h2) pow2_chain
  exact_mod_cast hk

theorem parse_number_digits (k : ℕ) (h1 : 1 ≤ k) (h2 : k < 10 ^ 15) :
    parse_number (natDigits k) = .ok (.num (mkRat ((k : ℕ) : ℤ) 1), []) := by
  obtain ⟨c, t, hl⟩ : ∃ c t, natDigits k = c :: t := by
    cases hh : natDigits k with
    | nil => exact absurd hh (natDigits_ne_nil k)
    | cons c t => exact ⟨c, t, rfl⟩
  have hc : isDigitC c = true := natDigits_all_digits k c (by rw [hl]; exact List.mem_cons_self c t)
  have hp : peekC (natDigits k) = c := by rw [hl]; rfl
  have hm : ¬ peekC (natDigits k) = '-' := by
    rw [hp]
    exact digit_ne c hc '-' (by decide)
  rw [parse_number]
  simp only [if_neg hm]
  rw [scanInt_digits k h1, ok_bind]
  show (scanFrac [] >>= _) = _
  rw [show scanFrac [] = .ok ([], []) from rfl, ok_bind]
  show (scanExp [] >>= _) = _
  rw [show scanExp [] = .ok (false, [], []) from rfl, ok_bind]
  show (if dblMax < _ then _ else _) = _
  rw [numValue_int k]
  rw [if_neg (mkRat_nat_nonneg k), if_neg (no_overflow k h2)]

theorem parse_value_digits (m : ℕ) (k : ℕ) (h1 : 1 ≤ k) (h2 : k < 10 ^ 15) :
    parse_value (m + 1) (natDigits k) = .ok (.num (mkRat ((k : ℕ) : ℤ) 1), []) := by
  obtain ⟨c, t, hl⟩ : ∃ c t, natDigits k = c :: t := by
    cases hh : natDigits k with
    | nil => exact absurd hh (natDigits_ne_nil k)
    | cons c t => exact ⟨c, t, rfl⟩
  have hc : isDigitC c = true := natDigits_all_digits k c (by rw [hl]; exact List.mem_cons_self c t)
  have hws : skip_ws (natDigits k) = natDigits k := by
    rw [hl]
    exact skip_ws_digits c t hc
  have hp : peekC (natDigits k) = c := by rw [hl]; rfl
  rw [parse_value]
  simp only [hws, hp]
  rw [if_neg (digit_ne c hc 'n' (by decide)), if_neg (digit_ne c hc 't' (by decide)),
    if_neg (digit_ne c hc 'f' (by decide)), if_neg (digit_ne c hc qch (by decide)),
    if_neg (digit_ne c hc '-' (by decide)), if_pos hc]
  exact parse_number_digits k h1 h2

theorem parse_natDigits (k : ℕ) (h1 : 1 ≤ k) (h2 : k < 10 ^ 15) :
    parse (natDigits k) = .ok (.num (mkRat ((k : ℕ) : ℤ) 1)) := by
  rw [parse]
  rw [show 2 * (natDigits k).length + 2 = (2 * (natDigits k).length + 1) + 1 from rfl]
  rw [parse_value_digits (2 * (natDigits k).length + 1) k h1 h2, ok_bind]
  rfl

/- ## Claims -/

/-- C1, corrected.  The claim states that duplicate keys resolve to the
last occurrence; the code inserts object members with
`std::map::emplace`, which does not overwrite an existing key, so the
FIRST occurrence wins: emplacing a key already present in the (sorted)
map leaves the map unchanged, and parsing `{"x":1,"x":2}` yields the
object with the single key `x` bound to `1`. -/
theorem claim_C1_first_wins :
    (∀ (k : List Char) (v : Json) (o : JObj), sortedKeys o = true →
      keyMem k o = true → insertEmplace k v o = o) ∧
    parse c1in = .ok (.obj (.cons ['x'] (.num 1) .nil)) :=
  ⟨fun _ _ o hs hm => insertEmplace_of_mem o hs hm, rfl⟩

/-- C1 witness: the emplace law at a concrete one-member map. -/
theorem claim_C1_first_wins_witness :
    insertEmplace ['x'] (.num 2) (.cons ['x'] (.num 1) .nil) =
      .cons ['x'] (.num 1) .nil :=
  claim_C1_first_wins.1 ['x'] (.num 2) (.cons ['x'] (.num 1) .nil) (by decide) (by decide)

/-- C1 counterexample: parsing `{"x":1,"x":2}` binds `x` to `1`, not to
`2` as the claim states. -/
theorem claim_C1_cex :
    parse c1in = .ok (.obj (.cons ['x'] (.num 1) .nil)) ∧ (1 : ℚ) ≠ 2 :=
  ⟨rfl, by norm_num⟩

/-- C2, corrected.  Parsing the text `"é"` does yield the literal
six characters backslash, `u`, `0`, `0`, `e`, `9` (no decoding), but
dumping that value yields `"\\u00e9"` — `escape` re-escapes the
backslash — and not the original text byte-for-byte; parsing the dumped
text returns the same six-character string, so the VALUE round-trips
while the text gains one backslash. -/
theorem claim_C2_passthrough :
    parse c2text = .ok (.str c2content) ∧
    dump (.str c2content) (-1) = c2dumped ∧
    parse c2dumped = .ok (.str c2content) :=
  ⟨rfl, rfl, rfl⟩

/-- C2 counterexample: the dump of the value parsed from `"é"` is
not the original eight-byte text. -/
theorem claim_C2_cex :
    parse c2text = .ok (.str c2content) ∧ dump (.str c2content) (-1) ≠ c2text :=
  ⟨rfl, by decide⟩

/-- C3, corrected.  Dump-then-parse reproduces a string exactly when
every character either is at or above 0x20 (double quote and backslash
included) or is a control character with a named escape (backspace, form
feed, newline, carriage return, tab).  The control byte 0x01, however,
is dumped as `\u0001` and parsed back as the literal six characters
`\u0001`, so the claim's string does not round-trip: its quote,
backslash, newline and tab return unchanged and the 0x01 byte comes back
as the six-character escape text. -/
theorem claim_C3_roundtrip :
    (∀ s, (∀ c ∈ s, RoundChar c) → parse (dump (.str s) (-1)) = .ok (.str s)) ∧
    parse (dump (.str c3str) (-1)) = .ok (.str c3parsed) :=
  ⟨parse_dump_str, rfl⟩

/-- C3 witness: the round-trip law at the concrete string `hi`. -/
theorem claim_C3_roundtrip_witness :
    parse (dump (.str ['h', 'i']) (-1)) = .ok (.str ['h', 'i']) :=
  claim_C3_roundtrip.1 ['h', 'i'] (by decide)

/-- C3 counterexample: dumping then parsing the string of the claim
(quote, backslash, newline, tab, byte 0x01) yields a different string —
the byte 0x01 returns as the literal text `\u0001`. -/
theorem claim_C3_cex :
    parse (dump (.str c3str) (-1)) = .ok (.str c3parsed) ∧ c3parsed ≠ c3str :=
  ⟨rfl, by decide⟩

/-- C4, corrected.  The character loop of `parse_string` runs
`while (!eof())`, so a string literal whose closing quote is missing at
end of input is NOT a syntax error: the loop ends at end of input and
`parse` returns the string read so far as a Value (the claim expects a
`SyntaxError`). -/
theorem claim_C4_accepts_unterminated (l : List Char)
    (h : ∀ c ∈ l, c ≠ qch ∧ c ≠ bsl) : parse (qch :: l) = .ok (.str l) :=
  parse_unterminated l h

/-- C4 witness: the unterminated input `"abc` parses to the string
`abc`. -/
theorem claim_C4_accepts_unterminated_witness :
    parse (qch :: ['a', 'b', 'c']) = .ok (.str ['a', 'b', 'c']) :=
  claim_C4_accepts_unterminated ['a', 'b', 'c'] (by decide)

/-- C4 counterexample: parsing the input consisting of a double quote
followed by `abc` and nothing else succeeds with a Value rather than
failing with a `SyntaxError`. -/
theorem claim_C4_cex :
    parse [qch, 'a', 'b', 'c'] = .ok (.str ['a', 'b', 'c']) := rfl

/-- C5, corrected.  A well-formed number token whose value overflows
double precision DOES make `parse` fail: the code converts the token
with `std::stod`, which throws `std::out_of_range` when the converted
value falls outside the range of `double` (it does not yield infinity),
so `1e999` raises that error — while the in-range `1e308` still parses
to its value. -/
theorem claim_C5_overflow :
    parse ['1', 'e', '9', '9', '9'] = .error .outOfRange ∧
    parse ['1', 'e', '3', '0', '8'] = .ok (.num (mkRat (((10 ^ 308 : ℕ) : ℤ)) 1)) :=
  ⟨rfl, rfl⟩

/-- C5 counterexample: parsing `1e999` does not produce a Value; it
fails with the `std::out_of_range` error of `std::stod`. -/
theorem claim_C5_cex : parse ['1', 'e', '9', '9', '9'] = .error PErr.outOfRange := rfl

/-- C6, confirmed.  Each of `[1,]`, `{"a":1,}`, `012`, `{"a" 1}`, `nul`,
`true}` and the empty input fails with a `SyntaxError`
(`std::runtime_error`), returning no value: the trailing array comma
dispatches on `]` and is an unexpected token; the trailing object comma
expects a string key; `012` parses `0` and leaves `12` as trailing
characters; `{"a" 1}` misses the colon; `nul` fails the literal match of
`null` at end of input; `true}` leaves trailing characters; the empty
input has no token to dispatch on. -/
theorem claim_C6_rejects :
    parse ['[', '1', ',', ']'] = .error (.synError "JSON: unexpected token") ∧
    parse [obr, qch, 'a', qch, ':', '1', ',', cbr] =
      .error (.synError "JSON: expected string key") ∧
    parse ['0', '1', '2'] = .error (.synError "JSON: trailing characters") ∧
    parse [obr, qch, 'a', qch, ' ', '1', cbr] = .error (.synError (expectMsg ':')) ∧
    parse ['n', 'u', 'l'] = .error (.synError (expectMsg 'l')) ∧
    parse ['t', 'r', 'u', 'e', cbr] = .error (.synError "JSON: trailing characters") ∧
    parse [] = .error (.synError "JSON: unexpected token") :=
  ⟨rfl, rfl, rfl, rfl, rfl, rfl, rfl⟩

/-- C7, confirmed.  Objects are `std::map`s, whose members are kept (and
iterated) in strictly ascending key order regardless of the order of
insertion: every value `parse` returns satisfies the sorted-keys
invariant at every nesting level, both insertion operations (`emplace`,
used by the parser, and `operator[]`, used by the builder) preserve it,
a sorted object's key sequence — the order `dump_impl` emits its
members in — is pairwise ascending, and parsing `{"b":1,"a":2}` then
dumping compact yields exactly `{"a":2,"b":1}`. -/
theorem claim_C7_key_order :
    (∀ (l : List Char) (j : Json), parse l = .ok j → jsonSorted j = true) ∧
    (∀ (k : List Char) (v : Json) (o : JObj), sortedKeys o = true →
      sortedKeys (insertEmplace k v o) = true) ∧
    (∀ (k : List Char) (o : JObj), sortedKeys o = true →
      sortedKeys (jobjIndex k o).1 = true) ∧
    (∀ o : JObj, sortedKeys o = true →
      (keyList o).Pairwise (fun a b => strLess a b = true)) ∧
    parse c7in = .ok (.obj (.cons ['a'] (.num 2) (.cons ['b'] (.num 1) .nil))) ∧
    dump (.obj (.cons ['a'] (.num 2) (.cons ['b'] (.num 1) .nil))) (-1) = c7out :=
  ⟨parse_sorted, sorted_insertEmplace, sorted_jobjIndex, sorted_pairwise, rfl, rfl⟩

/-- C7 witness: inserting `b` after `a` keeps the keys sorted. -/
theorem claim_C7_key_order_witness :
    sortedKeys (insertEmplace ['b'] (.num 1) (.cons ['a'] (.num 2) .nil)) = true :=
  claim_C7_key_order.2.1 ['b'] (.num 1) (.cons ['a'] (.num 2) .nil) (by decide)

/-- C8, corrected.  `parse (dump v)` (compact) reproduces the Value `v`
for null, both booleans, every ASCII string without special characters,
and every double holding an integer `k` with `1 ≤ k < 10^15` (the
15-significant-digit rendering of such a value is exact) — but NOT for
every finite double: `dump` prints numbers with 15 significant digits,
which cannot distinguish all doubles (see the counterexample
`2^53 + 2`). -/
theorem claim_C8_scalar_roundtrip :
    parse (dump .null (-1)) = .ok .null ∧
    (∀ b, parse (dump (.bool b) (-1)) = .ok (.bool b)) ∧
    (∀ s, (∀ c ∈ s, PlainChar c) → parse (dump (.str s) (-1)) = .ok (.str s)) ∧
    (∀ k : ℕ, 1 ≤ k → k < 10 ^ 15 →
      parse (dump (.num (mkRat ((k : ℕ) : ℤ) 1)) (-1)) = .ok (.num (mkRat ((k : ℕ) : ℤ) 1))) ∧
    parse (dump (.num 1) (-1)) = .ok (.num 1) ∧
    parse (dump (.num 2) (-1)) = .ok (.num 2) :=
  ⟨rfl, fun b => by cases b <;> rfl,
   fun s h => parse_dump_str s (fun c hc => Or.inl (h c hc).1),
   fun k h1 h2 => by
     rw [show dump (.num (mkRat ((k : ℕ) : ℤ) 1)) (-1) = fmtNum (mkRat ((k : ℕ) : ℤ) 1) from rfl,
       fmtNum_int k h1 h2]
     exact parse_natDigits k h1 h2,
   rfl, rfl⟩

/-- C8 witness: the string law at the concrete string `ok` and the
integer law at `12`. -/
theorem claim_C8_scalar_roundtrip_witness :
    parse (dump (.str ['o', 'k']) (-1)) = .ok (.str ['o', 'k']) ∧
    parse (dump (.num (mkRat ((12 : ℕ) : ℤ) 1)) (-1)) = .ok (.num (mkRat ((12 : ℕ) : ℤ) 1)) :=
  ⟨claim_C8_scalar_roundtrip.2.2.1 ['o', 'k'] (by decide),
   claim_C8_scalar_roundtrip.2.2.2.1 12 (by decide) (by decide)⟩

/-- C8 counterexample: the finite double `9007199254740994 = 2^53 + 2`
dumps as `9.00719925474099e+15` (15 significant digits), which parses
back as the different double `9007199254740990`. -/
theorem claim_C8_cex :
    parse (dump (.num bigDouble) (-1)) = .ok (.num bigDoubleBack) ∧
    bigDoubleBack ≠ bigDouble :=
  ⟨rfl, by decide⟩

/-- C9, corrected.  `skip_ws` uses `std::isspace`, whose C-locale set is
space, tab, newline, vertical tab, form feed and carriage return — two
characters MORE than the claim's set; dispatching on any next
non-whitespace character other than `n`, `t`, `f`, `"`, `-`, a digit,
`{` or `[` does fail with `JSON: unexpected token`, but an input
beginning with a form feed (0x0C) or vertical tab (0x0B) has that
character skipped as whitespace and parses successfully. -/
theorem claim_C9_ws_dispatch :
    (∀ c, isSpaceC c = true ↔
      (c = ' ' ∨ c = '\t' ∨ c = '\n' ∨ c = Char.ofNat 11 ∨ c = Char.ofNat 12 ∨ c = '\r')) ∧
    (∀ (l : List Char) (c : Char), (skip_ws l).head? = some c → dispatchB c = false →
      parse l = .error (.synError "JSON: unexpected token")) ∧
    parse (Char.ofNat 12 :: ['t', 'r', 'u', 'e']) = .ok (.bool true) ∧
    parse (Char.ofNat 11 :: ['t', 'r', 'u', 'e']) = .ok (.bool true) :=
  ⟨fun c => by simp [isSpaceC, or_assoc], fun l c h1 h2 => parse_unexpected h1 h2, rfl, rfl⟩

/-- C9 witness: the dispatch-failure law at the input `@`. -/
theorem claim_C9_ws_dispatch_witness :
    parse ['@'] = .error (.synError "JSON: unexpected token") :=
  claim_C9_ws_dispatch.2.1 ['@'] '@' (by decide) (by decide)

/-- C9 counterexample: an input beginning with a form feed parses
successfully — the form feed is skipped as whitespace — instead of
failing with a `SyntaxError` as the claim states. -/
theorem claim_C9_cex :
    parse (Char.ofNat 12 :: ['t', 'r', 'u', 'e']) = .ok (.bool true) := rfl

/-- C10, confirmed.  `operator[]` on a Boolean, Number, String or Array
value discards the payload, replaces the value with an empty Object and
returns the fresh Null bound to the key; `push_back` on a Boolean,
Number, String or Object value discards the payload and replaces the
value with an empty Array before appending; neither operation ever
raises a type mismatch. -/
theorem claim_C10_silent_upgrade :
    (∀ (b : Bool) (k : List Char),
      subscript (.bool b) k = .ok (.obj (.cons k .null .nil), .null)) ∧
    (∀ (q : ℚ) (k : List Char),
      subscript (.num q) k = .ok (.obj (.cons k .null .nil), .null)) ∧
    (∀ (s k : List Char),
      subscript (.str s) k = .ok (.obj (.cons k .null .nil), .null)) ∧
    (∀ (a : JArr) (k : List Char),
      subscript (.arr a) k = .ok (.obj (.cons k .null .nil), .null)) ∧
    (∀ (b : Bool) (x : Json), push_back (.bool b) x = .ok (.arr (.cons x .nil))) ∧
    (∀ (q : ℚ) (x : Json), push_back (.num q) x = .ok (.arr (.cons x .nil))) ∧
    (∀ (s : List Char) (x : Json), push_back (.str s) x = .ok (.arr (.cons x .nil))) ∧
    (∀ (o : JObj) (x : Json), push_back (.obj o) x = .ok (.arr (.cons x .nil))) :=
  ⟨fun _ _ => rfl, fun _ _ => rfl, fun _ _ => rfl, fun _ _ => rfl,
   fun _ _ => rfl, fun _ _ => rfl, fun _ _ => rfl, fun _ _ => rfl⟩

/-- C10 witness: indexing a Boolean value by the key `k`. -/
theorem claim_C10_silent_upgrade_witness :
    subscript (.bool true) ['k'] = .ok (.obj (.cons ['k'] .null .nil), .null) :=
  claim_C10_silent_upgrade.1 true ['k']

end MiniJson
